import Mathlib

/-!
Verification of the regex-to-NFA converter (`regext_to_nfa.py`).

The program converts a simplified regular expression (literals, grouping,
`*`, `+`, `?`, `|`, and internally-inserted `.` for concatenation) into a
non-deterministic finite automaton by first rewriting the infix expression
into postfix form (shunting-yard) and then running Thompson's construction
over the postfix token stream with an explicit fragment stack.

The embedding below mirrors the Python source:
  * `NFA` is the class `NFA` with its nested transition dictionary
    `transitions[state][symbol] = set_of_next_states`, modelled as an
    insertion-ordered association list whose inner destination "sets" are
    duplicate-free lists (Python dicts preserve insertion order; Python
    sets are modelled up to membership, which is the only thing the
    program observes about them).
  * The epsilon marker is the character `'ε'`, exactly as in the source,
    where it lives in the same character space as the literals.
  * Python exceptions are modelled by `Except Err`.  `Err.popEmpty` is the
    untyped `IndexError` raised by `list.pop()` on an empty list;
    `Err.unexpectedSymbol` and `Err.invalidPost` are the two `ValueError`s
    raised in `postfix_to_nfa`.
-/

set_option autoImplicit false
set_option maxRecDepth 8000

namespace RegexNfa

/-- Failure modes of the converter.  `popEmpty` models Python's untyped
`IndexError` from popping an empty list; `unexpectedSymbol` models the
`ValueError` for an unrecognised token; `invalidPost` models the
`ValueError` raised when the final fragment stack does not hold exactly
one automaton. -/
inductive Err where
  | popEmpty : Err
  | unexpectedSymbol : Char → Err
  | invalidPost : Err
deriving DecidableEq, Repr

/-- The epsilon transition marker, the character `'ε'` as in the source. -/
def epsSym : Char := 'ε'

/-- Inner transition map of one state: symbol to destination set
(`transitions[state]` in the source). -/
abbrev Inner := List (Char × List Nat)

/-- Full transition table: state to inner map (`transitions`). -/
abbrev Trans := List (Nat × List (Char × List Nat))

/-- The `NFA` class: start state, accept state, and nested transition
table. -/
structure NFA where
  start_state : Nat
  accept_state : Nat
  transitions : Trans
deriving DecidableEq, Repr

/-- `set.add`: insert an element into a destination set (no-op when
already present; modelled as append-if-absent on a duplicate-free
list). -/
def setAdd (s : List Nat) (x : Nat) : List Nat :=
  if x ∈ s then s else s ++ [x]

/-- Insert a destination under a symbol in an inner map, creating the
symbol entry (at the end, as Python dict insertion does) when absent. -/
def innerAdd : Inner → Char → Nat → Inner
  | [], sym, d => [(sym, [d])]
  | (a, ds) :: rest, sym, d =>
      if a = sym then (a, setAdd ds d) :: rest
      else (a, ds) :: innerAdd rest sym d

/-- Insert a transition triple into a table, creating the state entry (at
the end) when absent.  This is the body of `NFA.add_transition`. -/
def transAdd : Trans → Nat → Char → Nat → Trans
  | [], s, sym, d => [(s, [(sym, [d])])]
  | (a, inner) :: rest, s, sym, d =>
      if a = s then (a, innerAdd inner sym d) :: rest
      else (a, inner) :: transAdd rest s sym d

/-- `NFA.add_transition(from_state, symbol, to_state)`. -/
def NFA.add_transition (n : NFA) (s : Nat) (sym : Char) (d : Nat) : NFA :=
  { n with transitions := transAdd n.transitions s sym d }

/-- `set.update`: add every element of `ds` to the set `s`. -/
def setUnion (s : List Nat) (ds : List Nat) : List Nat :=
  ds.foldl setAdd s

/-- Add a whole destination set under a symbol in an inner map. -/
def innerUpd : Inner → Char → List Nat → Inner
  | [], sym, ds => [(sym, setUnion [] ds)]
  | (a, es) :: rest, sym, ds =>
      if a = sym then (a, setUnion es ds) :: rest
      else (a, es) :: innerUpd rest sym ds

/-- Add a whole destination set under `(state, symbol)` in a table,
creating missing entries, as the merge loops in the source do. -/
def transUpd : Trans → Nat → Char → List Nat → Trans
  | [], s, sym, ds => [(s, innerUpd [] sym ds)]
  | (a, inner) :: rest, s, sym, ds =>
      if a = s then (a, innerUpd inner sym ds) :: rest
      else (a, inner) :: transUpd rest s sym ds

/-- The nested merge loop of the `.` and `|` cases:
`for state in nfa2.transitions: for symbol, destinations in ...: update`.
Note that a state whose inner map is empty contributes nothing (the
entry-creation check sits inside the symbol loop in the source). -/
def mergeTrans (t1 t2 : Trans) : Trans :=
  t2.foldl (fun acc e => e.2.foldl (fun acc2 p => transUpd acc2 e.1 p.1 p.2) acc) t1

/-- The five operator tokens recognised by the evaluator
(`['*', '+', '?', '.', '|']`). -/
def opChars : List Char := ['*', '+', '?', '.', '|']

/-- Thompson rule for `*`: pop one fragment, allocate two states, wire
four epsilon transitions in the order of the source. -/
def starCase : List NFA → Nat → Except Err (List NFA × Nat)
  | [], _ => .error .popEmpty
  | f :: rest, n =>
      let g : NFA := ⟨n, n + 1, f.transitions⟩
      let g := g.add_transition n epsSym f.start_state
      let g := g.add_transition f.accept_state epsSym f.start_state
      let g := g.add_transition n epsSym (n + 1)
      let g := g.add_transition f.accept_state epsSym (n + 1)
      .ok (g :: rest, n + 2)

/-- Thompson rule for `+`: pop one fragment, allocate two states, wire
three epsilon transitions. -/
def plusCase : List NFA → Nat → Except Err (List NFA × Nat)
  | [], _ => .error .popEmpty
  | f :: rest, n =>
      let g : NFA := ⟨n, n + 1, f.transitions⟩
      let g := g.add_transition n epsSym f.start_state
      let g := g.add_transition f.accept_state epsSym f.start_state
      let g := g.add_transition f.accept_state epsSym (n + 1)
      .ok (g :: rest, n + 2)

/-- Thompson rule for `?`: pop one fragment, allocate two states, wire
three epsilon transitions. -/
def optCase : List NFA → Nat → Except Err (List NFA × Nat)
  | [], _ => .error .popEmpty
  | f :: rest, n =>
      let g : NFA := ⟨n, n + 1, f.transitions⟩
      let g := g.add_transition n epsSym f.start_state
      let g := g.add_transition f.accept_state epsSym (n + 1)
      let g := g.add_transition n epsSym (n + 1)
      .ok (g :: rest, n + 2)

/-- Thompson rule for `.` (concatenation): pop two fragments (`f2` was on
top), merge the tables, add one epsilon transition, allocate nothing. -/
def catCase : List NFA → Nat → Except Err (List NFA × Nat)
  | f2 :: f1 :: rest, n =>
      let g : NFA := ⟨f1.start_state, f2.accept_state, mergeTrans f1.transitions f2.transitions⟩
      let g := g.add_transition f1.accept_state epsSym f2.start_state
      .ok (g :: rest, n)
  | _, _ => .error .popEmpty

/-- Thompson rule for `|` (union): pop two fragments, allocate two
states, merge the tables, wire four epsilon transitions. -/
def unionCase : List NFA → Nat → Except Err (List NFA × Nat)
  | f2 :: f1 :: rest, n =>
      let g : NFA := ⟨n, n + 1, mergeTrans f1.transitions f2.transitions⟩
      let g := g.add_transition n epsSym f1.start_state
      let g := g.add_transition n epsSym f2.start_state
      let g := g.add_transition f1.accept_state epsSym (n + 1)
      let g := g.add_transition f2.accept_state epsSym (n + 1)
      .ok (g :: rest, n + 2)
  | _, _ => .error .popEmpty

/-- One step of the Thompson evaluator on a single token, acting on the
fragment stack (head is the top) and the state counter.  The token
dispatch mirrors the source: anything outside `opChars` is consumed as a
single-character literal; the final `else` models the unexpected-symbol
`ValueError`. -/
def pstep : List NFA × Nat → Char → Except Err (List NFA × Nat)
  | (stack, n), c =>
      if c ∈ opChars then
        if c = '*' then starCase stack n
        else if c = '+' then plusCase stack n
        else if c = '?' then optCase stack n
        else if c = '.' then catCase stack n
        else if c = '|' then unionCase stack n
        else .error (.unexpectedSymbol c)
      else
        .ok (((NFA.mk n (n + 1) []).add_transition n c (n + 1)) :: stack, n + 2)

/-- The token loop of `postfix_to_nfa`, aborting at the first raised
exception. -/
def pstepRun : List Char → List NFA × Nat → Except Err (List NFA × Nat)
  | [], st => .ok st
  | c :: cs, st =>
      match pstep st c with
      | .error e => .error e
      | .ok st2 => pstepRun cs st2

/-- `postfix_to_nfa`: run the evaluator from an empty stack and counter 0,
then demand exactly one fragment on the stack. -/
def postToNfa (p : String) : Except Err NFA :=
  match pstepRun p.data ([], 0) with
  | .error e => .error e
  | .ok (stack, _) =>
      match stack with
      | [nfa] => .ok nfa
      | _ => .error .invalidPost

/-- Step 1 of `infix_to_postfix`: insert an explicit `.` between adjacent
characters `c, nxt` whenever `c ∉ ['(', '|']` and
`nxt ∉ [')', '|', '*', '+', '?']`. -/
def insertConcat : List Char → List Char
  | [] => []
  | c :: rest =>
      match rest with
      | [] => [c]
      | nxt :: _ =>
          if c ∉ ['(', '|'] ∧ nxt ∉ [')', '|', '*', '+', '?'] then
            c :: '.' :: insertConcat rest
          else
            c :: insertConcat rest

/-- The precedence table; `'('` is kept on the stack with precedence 0.
(The Python dict holds exactly the six keys ever looked up.) -/
def prec : Char → Nat
  | '*' => 3
  | '+' => 3
  | '?' => 3
  | '.' => 2
  | '|' => 1
  | _ => 0

/-- The `')'` loop: pop operators to the output until a `'('` is popped
and discarded; popping an empty stack is the untyped `IndexError`. -/
def popUntilParen : List Char → List Char → Except Err (List Char × List Char)
  | _, [] => .error .popEmpty
  | out, top :: rest =>
      if top = '(' then .ok (out, rest)
      else popUntilParen (out ++ [top]) rest

/-- The operator loop: while the stack is non-empty and the top operator
has precedence greater than or equal to the current one, pop it to the
output. -/
def popGE : List Char → List Char → Char → List Char × List Char
  | out, [], _ => (out, [])
  | out, top :: rest, c =>
      if prec c ≤ prec top then popGE (out ++ [top]) rest c
      else (out, top :: rest)

/-- One step of the shunting-yard loop on `(output, operator stack)`
(stack head is the top). -/
def shuntStep : List Char × List Char → Char → Except Err (List Char × List Char)
  | (out, stack), c =>
      if c = '(' then .ok (out, '(' :: stack)
      else if c = ')' then popUntilParen out stack
      else if c ∈ opChars then
        let r := popGE out stack c
        .ok (r.1, c :: r.2)
      else .ok (out ++ [c], stack)

/-- The character loop of step 2 of `infix_to_postfix`. -/
def shuntRun : List Char → List Char × List Char → Except Err (List Char × List Char)
  | [], st => .ok st
  | c :: cs, st =>
      match shuntStep st c with
      | .error e => .error e
      | .ok st2 => shuntRun cs st2

/-- `infix_to_postfix`: insert explicit concatenation, run the
shunting-yard loop, then flush the remaining stack (top first) to the
output — note that a leftover `'('` is flushed into the output too, as in
the source. -/
def regexToPost (r : String) : Except Err String :=
  match shuntRun (insertConcat r.data) ([], []) with
  | .error e => .error e
  | .ok (out, stack) => .ok ⟨out ++ stack⟩

/-- `regex_to_nfa`: the orchestrator, propagating errors unchanged. -/
def regexToNfa (r : String) : Except Err NFA :=
  match regexToPost r with
  | .error e => .error e
  | .ok p => postToNfa p

/-! ## Observation functions

Counting, flattening and acceptance, used to state the claims. -/

/-- All destinations reachable from one inner map under one symbol. -/
def innerDests : Inner → Char → List Nat
  | [], _ => []
  | (a, ds) :: rest, sym =>
      if a = sym then ds ++ innerDests rest sym else innerDests rest sym

/-- All destinations of `(state, symbol)` in a table. -/
def transDests : Trans → Nat → Char → List Nat
  | [], _, _ => []
  | (k, inner) :: rest, s, sym =>
      if k = s then innerDests inner sym ++ transDests rest s sym
      else transDests rest s sym

/-- One symbol move of the standard NFA simulation. -/
def moveSet (t : Trans) (ss : List Nat) (sym : Char) : List Nat :=
  ((ss.map fun s => transDests t s sym)).flatten.dedup

/-- One epsilon-expansion step: keep the current states and add every
epsilon successor. -/
def epsStepF (t : Trans) (ss : List Nat) : List Nat :=
  (ss ++ moveSet t ss epsSym).dedup

/-- Iterate the epsilon expansion a given number of times. -/
def epsIter : Nat → Trans → List Nat → List Nat
  | 0, _, ss => ss
  | k + 1, t, ss => epsIter k t (epsStepF t ss)

/-- Total size of a table (entries, symbol entries and destinations);
an upper bound on the number of epsilon-expansion steps needed to reach
the closure fixpoint. -/
def sizeT (t : Trans) : Nat :=
  t.foldl (fun a e => a + 1 + e.2.foldl (fun b p => b + 1 + p.2.length) 0) 0

/-- Epsilon closure: iterate the expansion enough times to stabilise. -/
def epsClosure (t : Trans) (ss : List Nat) : List Nat :=
  epsIter (sizeT t + 1) t ss

/-- Standard NFA acceptance with epsilon closure: close the start state,
alternate one-symbol moves with closures, and test whether the accept
state is reached. -/
def NFA.accepts (m : NFA) (w : String) : Bool :=
  (w.data.foldl (fun ss c => epsClosure m.transitions (moveSet m.transitions ss c))
      (epsClosure m.transitions [m.start_state])).contains m.accept_state

/-- Whether the whole conversion succeeds on an expression. -/
def okR (e : String) : Bool :=
  match regexToNfa e with
  | .ok _ => true
  | .error _ => false

/-- Whether the automaton built from `e` accepts the word `w` (false when
the conversion fails). -/
def acceptsR (e w : String) : Bool :=
  match regexToNfa e with
  | .ok m => m.accepts w
  | .error _ => false

/-- Number of transition triples in a single inner map whose label is not
the epsilon marker. -/
def chCountInner : Inner → Nat
  | [] => 0
  | (sym, ds) :: rest => (if sym = epsSym then 0 else ds.length) + chCountInner rest

/-- Number of non-epsilon transition triples `(state, label, destination)`
of a table. -/
def chCount : Trans → Nat
  | [] => 0
  | (_, inner) :: rest => chCountInner inner + chCount rest

/-- Number of characters of a token list outside the full special-symbol
alphabet `* + ? . | ( )` — the literal characters of an infix
expression. -/
def countL7 : List Char → Nat
  | [] => 0
  | c :: rest =>
      (if c ∈ ['*', '+', '?', '.', '|', '(', ')'] then 0 else 1) + countL7 rest

/-- Literal characters of an expression (those outside the operator and
grouping alphabet). -/
def countLiterals (s : String) : Nat := countL7 s.data

/-- Number of characters of a token list outside the five evaluator
operators — exactly the tokens the Thompson evaluator consumes as
literals. -/
def countLit5 : List Char → Nat
  | [] => 0
  | c :: rest => (if c ∈ opChars then 0 else 1) + countLit5 rest

/-- Membership of one destination under one symbol in an inner map. -/
def IMem (m : Inner) (sym : Char) (d : Nat) : Prop :=
  ∃ ds, (sym, ds) ∈ m ∧ d ∈ ds

/-- Membership of a transition triple in a table. -/
def TMem (t : Trans) (s : Nat) (sym : Char) (d : Nat) : Prop :=
  ∃ inner, (s, inner) ∈ t ∧ IMem inner sym d

/-- Flatten a table to its list of `(state, label, destination)`
triples. -/
def triples (t : Trans) : List (Nat × Char × Nat) :=
  t.foldr (fun e acc => (e.2.foldr (fun p a2 => (p.2.map fun d => (e.1, p.1, d)) ++ a2) []) ++ acc) []

/-- All state identifiers mentioned by an automaton (start, accept, and
every source and destination of a transition), without duplicates. -/
def NFA.stateList (m : NFA) : List Nat :=
  (m.start_state :: m.accept_state ::
    (triples m.transitions).foldr (fun q acc => q.1 :: q.2.2 :: acc) []).dedup

/-- The characters that can ever sit on the shunting-yard operator stack:
the five operators and the opening group marker. -/
def stackOps : List Char := ['*', '+', '?', '.', '|', '(']

/-- Whether a result is the unexpected-symbol error. -/
def isUnexp : Err → Bool
  | .unexpectedSymbol _ => true
  | _ => false

/-- Whether a computation ended in the unexpected-symbol error. -/
def resUnexp {α : Type} : Except Err α → Bool
  | .error e => isUnexp e
  | .ok _ => false

/-- The state keys of a transition table. -/
def keys (t : Trans) : List Nat := t.map Prod.fst

/-- The symbol keys of an inner map. -/
def ikeys (m : Inner) : List Char := m.map Prod.fst

/-- Well-formedness of an inner map as a model of
`dict symbol -> set`: symbol keys are distinct and destination sets hold
no duplicates. -/
def InnerWF (m : Inner) : Prop :=
  (ikeys m).Nodup ∧ ∀ p ∈ m, p.2.Nodup

/-- Well-formedness of a table as a model of the nested Python dict:
state keys are distinct, inner maps are well-formed, and no state entry
is empty (the construction only ever creates an entry together with a
transition). -/
def TransWF (t : Trans) : Prop :=
  (keys t).Nodup ∧ ∀ e ∈ t, InnerWF e.2 ∧ e.2 ≠ []

/-- All states a fragment touches as start, accept or transition source
lie in the interval `[lo, hi)`. -/
def FragStates (f : NFA) (lo hi : Nat) : Prop :=
  lo ≤ f.start_state ∧ f.start_state < hi ∧
  lo ≤ f.accept_state ∧ f.accept_state < hi ∧
  ∀ e ∈ f.transitions, lo ≤ e.1 ∧ e.1 < hi

/-- Invariant of the Thompson evaluator: the fragments on the stack (head
on top) occupy disjoint, descending state intervals below the counter,
and their tables are well-formed. -/
def StackOK : List NFA → Nat → Prop
  | [], _ => True
  | f :: rest, hi => ∃ lo, FragStates f lo hi ∧ TransWF f.transitions ∧ StackOK rest lo

/-- Total number of non-epsilon transition triples across a fragment
stack. -/
def stackCh : List NFA → Nat
  | [] => 0
  | f :: rest => chCount f.transitions + stackCh rest

/-- The automaton the converter builds for the expression `"(a|b)?a"`
(state ids and table ordering follow the allocation and insertion order
of the source). -/
def demoNfa : NFA :=
  ⟨6, 9,
    [(0, [('a', [1])]),
     (2, [('b', [3])]),
     (4, [('ε', [0, 2])]),
     (1, [('ε', [5])]),
     (3, [('ε', [5])]),
     (6, [('ε', [4, 7])]),
     (5, [('ε', [7])]),
     (8, [('a', [9])]),
     (7, [('ε', [8])])]⟩

/-- The automaton the converter builds for the expression `"("`: the
unmatched opening marker is flushed into the postfix output and then
consumed as an ordinary literal by the Thompson evaluator. -/
def parenNfa : NFA := ⟨0, 1, [(0, [('(', [1])])]⟩

/-! ## Claim theorems and supporting lemmas -/

/-- C1: for `"(a|b)?a"`, the conversion succeeds and the resulting
automaton, under standard epsilon-closure NFA acceptance, accepts exactly
`"a"`, `"aa"`, `"ba"` among the probe set and rejects `""`, `"b"`,
`"bb"`. -/
theorem c1_membership :
    okR "(a|b)?a" = true ∧
    acceptsR "(a|b)?a" "a" = true ∧
    acceptsR "(a|b)?a" "aa" = true ∧
    acceptsR "(a|b)?a" "ba" = true ∧
    acceptsR "(a|b)?a" "" = false ∧
    acceptsR "(a|b)?a" "b" = false ∧
    acceptsR "(a|b)?a" "bb" = false :=
  ⟨rfl, rfl, rfl, rfl, rfl, rfl, rfl⟩

/-- C2 (counterexample): on the malformed input `"(a"`, the
infix-to-postfix stage does not raise any error at all — the unmatched
opening marker is flushed into the postfix output, which becomes
`"a("`.  Hence no malformed-expression error is raised by the stage that
scans the grouping markers. -/
theorem c2_counterexample : regexToPost "(a" = .ok "a(" := rfl

/-- C2 (amended): on input `"(a"` the conversion does fail and returns no
automaton, but the error is the invalid-postfix `ValueError` from the
final stack-size check of the Thompson evaluator, not a
malformed-expression error (the code has none). -/
theorem c2_amended : regexToNfa "(a" = .error .invalidPost := rfl

/-- C4 (counterexample): the input `"("` is accepted by the whole
conversion (so it is a well-formed input in the sense that an automaton
is returned), contains zero literal characters, yet the automaton has one
non-epsilon transition — labelled `'('` — because the unmatched opening
marker is flushed into the postfix output and consumed as a literal. -/
theorem c4_counterexample :
    regexToNfa "(" = .ok parenNfa ∧
    chCount parenNfa.transitions = 1 ∧
    countLiterals "(" = 0 :=
  ⟨rfl, rfl, rfl⟩

/-- C5: converting `"(a|b)?a"` (after making concatenation explicit)
yields exactly the postfix token string `"ab|?a."`. -/
theorem c5_conversion : regexToPost "(a|b)?a" = .ok "ab|?a." := rfl

/-- C7 (counterexample): on the input `")"`, whose closing marker has no
matching opener, the conversion fails with the untyped empty-stack pop
(`IndexError` in the source, `Err.popEmpty` here), not with a typed
malformed-expression error. -/
theorem c7_counterexample : regexToNfa ")" = .error .popEmpty := rfl

/-- C10: on the empty expression the postfix stream is empty, the
evaluator loop ends with an empty fragment stack, and the final
stack-size check raises the invalid-postfix `ValueError`; no automaton is
returned. -/
theorem c10_empty_input :
    regexToPost "" = .ok "" ∧
    pstepRun ("" : String).data ([], 0) = .ok ([], 0) ∧
    regexToNfa "" = .error .invalidPost :=
  ⟨rfl, rfl, rfl⟩

/-! ### Membership lemmas for the transition-table operations -/

theorem setAdd_mem (s : List Nat) (x y : Nat) : y ∈ setAdd s x ↔ y ∈ s ∨ y = x := by
  by_cases h : x ∈ s
  · simp only [setAdd, if_pos h]
    exact ⟨Or.inl, fun hy => hy.elim id (fun e => e ▸ h)⟩
  · simp [setAdd, if_neg h]

theorem IMem_nil (sym : Char) (d : Nat) : ¬ IMem [] sym d := by
  simp [IMem]

theorem IMem_cons (a : Char) (ds : List Nat) (m : Inner) (sym : Char) (d : Nat) :
    IMem ((a, ds) :: m) sym d ↔ (sym = a ∧ d ∈ ds) ∨ IMem m sym d := by
  constructor
  · rintro ⟨ds2, hmem, hd⟩
    rcases List.mem_cons.mp hmem with hmem | hmem
    · cases hmem
      exact Or.inl ⟨rfl, hd⟩
    · exact Or.inr ⟨ds2, hmem, hd⟩
  · rintro (⟨rfl, hd⟩ | ⟨ds2, hm, hd⟩)
    · exact ⟨ds, List.mem_cons_self _ _, hd⟩
    · exact ⟨ds2, List.mem_cons_of_mem _ hm, hd⟩

theorem IMem_innerAdd (m : Inner) (sy : Char) (x : Nat) (sym : Char) (d : Nat) :
    IMem (innerAdd m sy x) sym d ↔ IMem m sym d ∨ (sym = sy ∧ d = x) := by
  induction m with
  | nil =>
      simp [innerAdd, IMem_cons, IMem_nil]
  | cons p rest ih =>
      obtain ⟨a, ds⟩ := p
      by_cases h : a = sy
      · subst h
        have he : innerAdd ((a, ds) :: rest) a x = (a, setAdd ds x) :: rest := by
          simp [innerAdd]
        rw [he]
        simp only [IMem_cons, setAdd_mem]
        tauto
      · simp only [innerAdd, if_neg h, IMem_cons, ih]
        tauto

theorem TMem_nil (s : Nat) (sym : Char) (d : Nat) : ¬ TMem [] s sym d := by
  simp [TMem]

theorem TMem_cons (k : Nat) (inner : Inner) (t : Trans) (s : Nat) (sym : Char) (d : Nat) :
    TMem ((k, inner) :: t) s sym d ↔ (s = k ∧ IMem inner sym d) ∨ TMem t s sym d := by
  constructor
  · rintro ⟨i, hmem, hi⟩
    rcases List.mem_cons.mp hmem with hmem | hmem
    · cases hmem
      exact Or.inl ⟨rfl, hi⟩
    · exact Or.inr ⟨i, hmem, hi⟩
  · rintro (⟨rfl, hi⟩ | ⟨i, hm, hi⟩)
    · exact ⟨inner, List.mem_cons_self _ _, hi⟩
    · exact ⟨i, List.mem_cons_of_mem _ hm, hi⟩

theorem TMem_transAdd (t : Trans) (k : Nat) (sy : Char) (x : Nat)
    (s : Nat) (sym : Char) (d : Nat) :
    TMem (transAdd t k sy x) s sym d ↔ TMem t s sym d ∨ (s = k ∧ sym = sy ∧ d = x) := by
  induction t with
  | nil =>
      simp [transAdd, TMem_cons, TMem_nil, IMem_cons, IMem_nil]
  | cons e rest ih =>
      obtain ⟨a, inner⟩ := e
      by_cases h : a = k
      · subst h
        have he : transAdd ((a, inner) :: rest) a sy x = (a, innerAdd inner sy x) :: rest := by
          simp [transAdd]
        rw [he]
        simp only [TMem_cons, IMem_innerAdd]
        tauto
      · simp only [transAdd, if_neg h, TMem_cons, ih]
        tauto

theorem TMem_append (t1 t2 : Trans) (s : Nat) (sym : Char) (d : Nat) :
    TMem (t1 ++ t2) s sym d ↔ TMem t1 s sym d ∨ TMem t2 s sym d := by
  simp [TMem, List.mem_append, or_and_right, exists_or]

/-- C6: on a `*` token the evaluator pops exactly one fragment `F` (the
rest of the stack is untouched), allocates exactly the two fresh states
`n` and `n + 1` as the new start and accept, and the pushed fragment's
table holds a transition triple exactly when it is one of `F`'s or one of
the four epsilon transitions start→F.start, F.accept→F.start,
start→accept, F.accept→accept. -/
theorem c6_star_rule (f : NFA) (rest : List NFA) (n : Nat) :
    ∃ g : NFA,
      pstep (f :: rest, n) '*' = .ok (g :: rest, n + 2) ∧
      g.start_state = n ∧ g.accept_state = n + 1 ∧
      (∀ s sym d, TMem g.transitions s sym d ↔
        (TMem f.transitions s sym d ∨
          (s = n ∧ sym = epsSym ∧ d = f.start_state) ∨
          (s = f.accept_state ∧ sym = epsSym ∧ d = f.start_state) ∨
          (s = n ∧ sym = epsSym ∧ d = n + 1) ∨
          (s = f.accept_state ∧ sym = epsSym ∧ d = n + 1))) := by
  refine ⟨_, rfl, rfl, rfl, ?_⟩
  intro s sym d
  simp only [NFA.add_transition, TMem_transAdd]
  tauto

/-! ### The unexpected-symbol branch is unreachable -/

theorem pstep_not_unexp (st : List NFA × Nat) (c : Char) : resUnexp (pstep st c) = false := by
  obtain ⟨stack, n⟩ := st
  by_cases hc : c ∈ opChars
  · simp only [opChars, List.mem_cons, List.mem_singleton, List.not_mem_nil, or_false] at hc
    rcases hc with rfl | rfl | rfl | rfl | rfl <;>
      rcases stack with _ | ⟨f, _ | ⟨f1, rest⟩⟩ <;>
        simp [pstep, opChars, starCase, plusCase, optCase, catCase, unionCase, resUnexp, isUnexp]
  · simp [pstep, hc, resUnexp]

theorem pstepRun_not_unexp (cs : List Char) : ∀ st, resUnexp (pstepRun cs st) = false := by
  induction cs with
  | nil => intro st; simp [pstepRun, resUnexp]
  | cons c cs ih =>
      intro st
      have h := pstep_not_unexp st c
      cases hp : pstep st c with
      | error e =>
          rw [hp] at h
          simpa [pstepRun, hp, resUnexp] using h
      | ok st2 =>
          simpa [pstepRun, hp] using ih st2

/-- C8 (counterexample): the token `')'` matches no literal of the input
alphabet and no known operator, yet on the postfix stream `")"` the
evaluator consumes it with the literal rule and returns a best-effort
automaton (with a `')'`-labelled transition) instead of raising the
unexpected-symbol error. -/
theorem c8_counterexample :
    postToNfa ")" = .ok ⟨0, 1, [(0, [(')', [1])])]⟩ ∧
    resUnexp (postToNfa ")") = false :=
  ⟨rfl, rfl⟩

/-- C8 (amended): no postfix input can make the evaluator raise the
unexpected-symbol error — every character outside the five operator
symbols is consumed by the literal rule, so the unexpected-symbol branch
is unreachable dead code. -/
theorem c8_amended (p : String) : resUnexp (postToNfa p) = false := by
  unfold postToNfa
  have h := pstepRun_not_unexp p.data ([], 0)
  cases hr : pstepRun p.data ([], 0) with
  | error e =>
      rw [hr] at h
      simpa [resUnexp] using h
  | ok st =>
      obtain ⟨stack, n⟩ := st
      rcases stack with _ | ⟨nfa, _ | _⟩ <;> simp [resUnexp, isUnexp]

/-- C3: for a single literal character (not one of the operator or
grouping symbols), the resulting automaton has exactly two states and
exactly one transition, labelled with that character, from its start
state to its accept state. -/
theorem c3_single_literal (c : Char) (h : c ∉ ['*', '+', '?', '.', '|', '(', ')']) :
    regexToNfa ⟨[c]⟩ = .ok ⟨0, 1, [(0, [(c, [1])])]⟩ ∧
    (NFA.mk 0 1 [(0, [(c, [1])])]).stateList.length = 2 ∧
    triples [(0, [(c, [1])])] = [(0, c, 1)] := by
  simp only [List.mem_cons, List.mem_singleton, List.not_mem_nil, or_false, not_or] at h
  obtain ⟨h1, h2, h3, h4, h5, h6, h7⟩ := h
  refine ⟨?_, rfl, rfl⟩
  simp [regexToNfa, regexToPost, insertConcat, shuntRun, shuntStep, postToNfa, pstepRun,
    pstep, opChars, NFA.add_transition, transAdd, h1, h2, h3, h4, h5, h6, h7]

theorem c3_witness :
    ('a' ∉ ['*', '+', '?', '.', '|', '(', ')']) ∧
    regexToNfa ⟨['a']⟩ = .ok ⟨0, 1, [(0, [('a', [1])])]⟩ :=
  ⟨by decide, (c3_single_literal 'a' (by decide)).1⟩

/-! ### Unmatched closing marker: untyped empty-pop failure -/

theorem popUntilParen_no_open (stack : List Char) :
    ∀ out, '(' ∉ stack → popUntilParen out stack = .error .popEmpty := by
  induction stack with
  | nil => intro out _; rfl
  | cons top rest ih =>
      intro out hmem
      have h1 : top ≠ '(' := fun e => hmem (e ▸ List.mem_cons_self _ _)
      have h1s : ¬ (top = '(') := h1
      simp only [popUntilParen, if_neg h1s]
      exact ih _ (fun hm => hmem (List.mem_cons_of_mem _ hm))

/-- C7 (amended): whenever the closing-marker scan runs with no opening
marker on the operator stack, the conversion step fails with the untyped
empty-stack pop (`IndexError` in the source), not with a typed
malformed-expression error — the code has no such error type. -/
theorem c7_amended (out stack : List Char) (h : '(' ∉ stack) :
    shuntStep (out, stack) ')' = .error .popEmpty := by
  simp only [shuntStep]
  norm_num
  exact popUntilParen_no_open stack out h

theorem c7_amended_witness :
    ('(' ∉ ([] : List Char)) ∧ shuntStep ([], []) ')' = .error .popEmpty :=
  ⟨by decide, c7_amended [] [] (by decide)⟩

/-! ### Structure of the merge loop on well-formed, key-disjoint tables -/

theorem foldl_setAdd_fresh (ds : List Nat) :
    ∀ acc, ds.Nodup → (∀ x ∈ ds, x ∉ acc) → ds.foldl setAdd acc = acc ++ ds := by
  induction ds with
  | nil => intro acc _ _; simp
  | cons d rest ih =>
      intro acc hnd hfr
      have hd : d ∉ acc := hfr d (List.mem_cons_self _ _)
      have h1 : setAdd acc d = acc ++ [d] := by simp [setAdd, hd]
      have h2 : rest.foldl setAdd (acc ++ [d]) = (acc ++ [d]) ++ rest := by
        refine ih (acc ++ [d]) (List.Nodup.of_cons hnd) ?_
        intro x hx
        simp only [List.mem_append, List.mem_singleton]
        rintro (hxa | rfl)
        · exact hfr x (List.mem_cons_of_mem _ hx) hxa
        · exact (List.nodup_cons.mp hnd).1 hx
      simp only [List.foldl_cons, h1, h2, List.append_assoc, List.singleton_append]

theorem setUnion_nil (ds : List Nat) (h : ds.Nodup) : setUnion [] ds = ds := by
  simpa using foldl_setAdd_fresh ds [] h (by simp)

theorem innerUpd_fresh (m : Inner) (sym : Char) (ds : List Nat)
    (hk : sym ∉ ikeys m) (hnd : ds.Nodup) : innerUpd m sym ds = m ++ [(sym, ds)] := by
  induction m with
  | nil => simp [innerUpd, setUnion_nil ds hnd]
  | cons p rest ih =>
      obtain ⟨a, es⟩ := p
      simp only [ikeys, List.map_cons, List.mem_cons] at hk
      push_neg at hk
      have ha : ¬ (a = sym) := fun e => hk.1 e.symm
      simp only [innerUpd, if_neg ha, List.cons_append]
      congr 1
      exact ih (by simpa [ikeys] using hk.2)

theorem transUpd_fresh (t : Trans) (s : Nat) (sym : Char) (ds : List Nat)
    (hk : s ∉ keys t) (hnd : ds.Nodup) : transUpd t s sym ds = t ++ [(s, [(sym, ds)])] := by
  induction t with
  | nil => simp [transUpd, innerUpd, setUnion_nil ds hnd]
  | cons e rest ih =>
      obtain ⟨a, inner⟩ := e
      simp only [keys, List.map_cons, List.mem_cons] at hk
      push_neg at hk
      have ha : ¬ (a = s) := fun e => hk.1 e.symm
      simp only [transUpd, if_neg ha, List.cons_append]
      congr 1
      exact ih (by simpa [keys] using hk.2)

theorem transUpd_last (t : Trans) (s : Nat) (cur : Inner) (sym : Char) (ds : List Nat)
    (hk : s ∉ keys t) :
    transUpd (t ++ [(s, cur)]) s sym ds = t ++ [(s, innerUpd cur sym ds)] := by
  induction t with
  | nil => simp [transUpd]
  | cons e rest ih =>
      obtain ⟨a, inner⟩ := e
      simp only [keys, List.map_cons, List.mem_cons] at hk
      push_neg at hk
      have ha : ¬ (a = s) := fun e => hk.1 e.symm
      simp only [List.cons_append, transUpd, if_neg ha]
      congr 1
      exact ih (by simpa [keys] using hk.2)

theorem entryFold_aux (irest : Inner) :
    ∀ (cur : Inner) (t : Trans) (s : Nat), s ∉ keys t →
      (ikeys (cur ++ irest)).Nodup → (∀ p ∈ irest, p.2.Nodup) →
      irest.foldl (fun a p => transUpd a s p.1 p.2) (t ++ [(s, cur)]) = t ++ [(s, cur ++ irest)] := by
  induction irest with
  | nil => intro cur t s _ _ _; simp
  | cons q r ih =>
      intro cur t s hk hnd hds
      obtain ⟨sym, ds⟩ := q
      have hsym : sym ∉ ikeys cur := by
        simp only [ikeys, List.map_append, List.map_cons] at hnd
        have := (List.nodup_append.mp hnd).2.2
        intro hin
        exact this hin (List.mem_cons_self _ _)
      have h1 : transUpd (t ++ [(s, cur)]) s sym ds = t ++ [(s, cur ++ [(sym, ds)])] := by
        rw [transUpd_last t s cur sym ds hk,
          innerUpd_fresh cur sym ds hsym (hds _ (List.mem_cons_self _ _))]
      simp only [List.foldl_cons, h1]
      have h2 := ih (cur ++ [(sym, ds)]) t s hk
        (by simpa [List.append_assoc] using hnd)
        (fun p hp => hds p (List.mem_cons_of_mem _ hp))
      simpa [List.append_assoc] using h2

theorem entryFold_fresh (inner : Inner) (t : Trans) (s : Nat)
    (hk : s ∉ keys t) (hw : InnerWF inner) (hne : inner ≠ []) :
    inner.foldl (fun a p => transUpd a s p.1 p.2) t = t ++ [(s, inner)] := by
  match inner, hne with
  | (sym, ds) :: irest, _ =>
      have hds : ds.Nodup := hw.2 _ (List.mem_cons_self _ _)
      have h1 : transUpd t s sym ds = t ++ [(s, [(sym, ds)])] := transUpd_fresh t s sym ds hk hds
      simp only [List.foldl_cons, h1]
      have h2 := entryFold_aux irest [(sym, ds)] t s hk (by simpa using hw.1)
        (fun p hp => hw.2 p (List.mem_cons_of_mem _ hp))
      simpa using h2

theorem keys_append (t1 t2 : Trans) : keys (t1 ++ t2) = keys t1 ++ keys t2 := by
  simp [keys]

theorem TransWF_cons (s : Nat) (inner : Inner) (rest : Trans)
    (h : TransWF ((s, inner) :: rest)) :
    s ∉ keys rest ∧ InnerWF inner ∧ inner ≠ [] ∧ TransWF rest := by
  obtain ⟨hnd, hent⟩ := h
  simp only [keys, List.map_cons, List.nodup_cons] at hnd
  refine ⟨hnd.1, (hent _ (List.mem_cons_self _ _)).1, (hent _ (List.mem_cons_self _ _)).2,
    hnd.2, fun e he => hent e (List.mem_cons_of_mem _ he)⟩

theorem mergeTrans_append (t2 : Trans) :
    ∀ t1, TransWF t2 → (∀ k ∈ keys t2, k ∉ keys t1) → mergeTrans t1 t2 = t1 ++ t2 := by
  induction t2 with
  | nil => intro t1 _ _; simp [mergeTrans]
  | cons e rest ih =>
      intro t1 hw hd
      obtain ⟨s, inner⟩ := e
      obtain ⟨hs, hwi, hne, hwr⟩ := TransWF_cons s inner rest hw
      have hks : s ∉ keys t1 := hd s (by simp [keys])
      have h1 : inner.foldl (fun a p => transUpd a s p.1 p.2) t1 = t1 ++ [(s, inner)] :=
        entryFold_fresh inner t1 s hks hwi hne
      have h2 : mergeTrans (t1 ++ [(s, inner)]) rest = (t1 ++ [(s, inner)]) ++ rest := by
        refine ih (t1 ++ [(s, inner)]) hwr ?_
        intro k hk
        rw [keys_append]
        simp only [List.mem_append, keys, List.map_cons, List.map_nil, List.mem_singleton,
          not_or]
        refine ⟨hd k (by simp [keys, List.mem_cons]; exact Or.inr (by simpa [keys] using hk)), ?_⟩
        intro he
        exact hs (he ▸ hk)
      calc mergeTrans t1 ((s, inner) :: rest)
          = mergeTrans (t1 ++ [(s, inner)]) rest := by
            simp only [mergeTrans, List.foldl_cons, h1]
        _ = t1 ++ ((s, inner) :: rest) := by
            rw [h2, List.append_assoc, List.singleton_append]

/-! ### Counting non-epsilon triples -/

theorem chCountInner_append (m1 m2 : Inner) :
    chCountInner (m1 ++ m2) = chCountInner m1 + chCountInner m2 := by
  induction m1 with
  | nil => simp [chCountInner]
  | cons p rest ih => obtain ⟨a, ds⟩ := p; simp [chCountInner, ih]; omega

theorem chCount_append (t1 t2 : Trans) :
    chCount (t1 ++ t2) = chCount t1 + chCount t2 := by
  induction t1 with
  | nil => simp [chCount]
  | cons e rest ih => obtain ⟨a, inner⟩ := e; simp [chCount, ih]; omega

theorem chCountInner_innerAdd_eps (m : Inner) (d : Nat) :
    chCountInner (innerAdd m epsSym d) = chCountInner m := by
  induction m with
  | nil => simp [innerAdd, chCountInner]
  | cons p rest ih =>
      obtain ⟨a, ds⟩ := p
      by_cases h : a = epsSym
      · subst h
        have he : innerAdd ((epsSym, ds) :: rest) epsSym d = (epsSym, setAdd ds d) :: rest := by
          simp [innerAdd]
        rw [he]
        simp [chCountInner]
      · simp [innerAdd, h, chCountInner, ih]

theorem chCount_transAdd_eps (t : Trans) (s : Nat) (d : Nat) :
    chCount (transAdd t s epsSym d) = chCount t := by
  induction t with
  | nil => simp [transAdd, chCount, chCountInner]
  | cons e rest ih =>
      obtain ⟨a, inner⟩ := e
      by_cases h : a = s
      · subst h
        have he : transAdd ((a, inner) :: rest) a epsSym d = (a, innerAdd inner epsSym d) :: rest := by
          simp [transAdd]
        rw [he]
        simp [chCount, chCountInner_innerAdd_eps]
      · simp [transAdd, h, chCount, ih]

/-! ### Well-formedness is preserved by transition insertion -/

theorem setAdd_nodup (s : List Nat) (x : Nat) (h : s.Nodup) : (setAdd s x).Nodup := by
  by_cases hx : x ∈ s
  · simpa [setAdd, hx] using h
  · simp only [setAdd, if_neg hx]
    exact List.Nodup.append h (List.nodup_singleton x) (by simpa using hx)

theorem ikeys_cons (a : Char) (ds : List Nat) (m : Inner) :
    ikeys ((a, ds) :: m) = a :: ikeys m := rfl

theorem keys_cons (a : Nat) (inner : Inner) (t : Trans) :
    keys ((a, inner) :: t) = a :: keys t := rfl

theorem innerAdd_ikeys_mem (m : Inner) (sym : Char) (d : Nat) (h : sym ∈ ikeys m) :
    ikeys (innerAdd m sym d) = ikeys m := by
  induction m with
  | nil => simp [ikeys] at h
  | cons p rest ih =>
      obtain ⟨a, ds⟩ := p
      by_cases ha : a = sym
      · subst ha
        have he : innerAdd ((a, ds) :: rest) a d = (a, setAdd ds d) :: rest := by
          simp [innerAdd]
        rw [he, ikeys_cons, ikeys_cons]
      · rw [ikeys_cons, List.mem_cons] at h
        rcases h with h | h
        · exact absurd h.symm ha
        · have he : innerAdd ((a, ds) :: rest) sym d = (a, ds) :: innerAdd rest sym d := by
            simp [innerAdd, ha]
          rw [he, ikeys_cons, ikeys_cons, ih h]

theorem innerAdd_ikeys_notmem (m : Inner) (sym : Char) (d : Nat) (h : sym ∉ ikeys m) :
    ikeys (innerAdd m sym d) = ikeys m ++ [sym] := by
  induction m with
  | nil => simp [innerAdd, ikeys]
  | cons p rest ih =>
      obtain ⟨a, ds⟩ := p
      rw [ikeys_cons, List.mem_cons] at h
      push_neg at h
      have ha : ¬ (a = sym) := fun e => h.1 e.symm
      have he : innerAdd ((a, ds) :: rest) sym d = (a, ds) :: innerAdd rest sym d := by
        simp [innerAdd, ha]
      rw [he, ikeys_cons, ikeys_cons, ih h.2, List.cons_append]

theorem innerAdd_WF (m : Inner) (sym : Char) (d : Nat) (h : InnerWF m) :
    InnerWF (innerAdd m sym d) := by
  obtain ⟨hk, hds⟩ := h
  constructor
  · by_cases hmem : sym ∈ ikeys m
    · rw [innerAdd_ikeys_mem m sym d hmem]; exact hk
    · rw [innerAdd_ikeys_notmem m sym d hmem]
      exact List.Nodup.append hk (List.nodup_singleton sym) (by simpa using hmem)
  · clear hk
    induction m with
    | nil =>
        intro p hp
        simp only [innerAdd, List.mem_singleton] at hp
        subst hp
        exact List.nodup_singleton d
    | cons q rest ih =>
        obtain ⟨a, ds⟩ := q
        by_cases ha : a = sym
        · subst ha
          have he : innerAdd ((a, ds) :: rest) a d = (a, setAdd ds d) :: rest := by
            simp [innerAdd]
          rw [he]
          intro p hp
          rcases List.mem_cons.mp hp with hp | hp
          · subst hp
            exact setAdd_nodup ds d (hds _ (List.mem_cons_self _ _))
          · exact hds p (List.mem_cons_of_mem _ hp)
        · simp only [innerAdd, if_neg ha]
          intro p hp
          rcases List.mem_cons.mp hp with hp | hp
          · subst hp
            exact hds _ (List.mem_cons_self _ _)
          · exact ih (fun q hq => hds q (List.mem_cons_of_mem _ hq)) p hp

theorem innerAdd_ne_nil (m : Inner) (sym : Char) (d : Nat) : innerAdd m sym d ≠ [] := by
  cases m with
  | nil => simp [innerAdd]
  | cons p rest =>
      obtain ⟨a, ds⟩ := p
      by_cases ha : a = sym <;> simp [innerAdd, ha]

theorem transAdd_keys_mem (t : Trans) (s : Nat) (sym : Char) (d : Nat) (h : s ∈ keys t) :
    keys (transAdd t s sym d) = keys t := by
  induction t with
  | nil => simp [keys] at h
  | cons e rest ih =>
      obtain ⟨a, inner⟩ := e
      by_cases ha : a = s
      · subst ha
        have he : transAdd ((a, inner) :: rest) a sym d = (a, innerAdd inner sym d) :: rest := by
          simp [transAdd]
        rw [he, keys_cons, keys_cons]
      · rw [keys_cons, List.mem_cons] at h
        rcases h with h | h
        · exact absurd h.symm ha
        · have he : transAdd ((a, inner) :: rest) s sym d = (a, inner) :: transAdd rest s sym d := by
            simp [transAdd, ha]
          rw [he, keys_cons, keys_cons, ih h]

theorem transAdd_keys_notmem (t : Trans) (s : Nat) (sym : Char) (d : Nat) (h : s ∉ keys t) :
    keys (transAdd t s sym d) = keys t ++ [s] := by
  induction t with
  | nil => simp [transAdd, keys]
  | cons e rest ih =>
      obtain ⟨a, inner⟩ := e
      rw [keys_cons, List.mem_cons] at h
      push_neg at h
      have ha : ¬ (a = s) := fun e => h.1 e.symm
      have he : transAdd ((a, inner) :: rest) s sym d = (a, inner) :: transAdd rest s sym d := by
        simp [transAdd, ha]
      rw [he, keys_cons, keys_cons, ih h.2, List.cons_append]

theorem transAdd_WF (t : Trans) (s : Nat) (sym : Char) (d : Nat) (h : TransWF t) :
    TransWF (transAdd t s sym d) := by
  obtain ⟨hk, hent⟩ := h
  constructor
  · by_cases hmem : s ∈ keys t
    · rw [transAdd_keys_mem t s sym d hmem]; exact hk
    · rw [transAdd_keys_notmem t s sym d hmem]
      exact List.Nodup.append hk (List.nodup_singleton s) (by simpa using hmem)
  · clear hk
    induction t with
    | nil =>
        intro e he
        simp only [transAdd, List.mem_singleton] at he
        subst he
        exact ⟨⟨List.nodup_singleton sym, by intro p hp; simp at hp; subst hp; exact List.nodup_singleton d⟩, by simp⟩
    | cons q rest ih =>
        obtain ⟨a, inner⟩ := q
        by_cases ha : a = s
        · subst ha
          have he2 : transAdd ((a, inner) :: rest) a sym d = (a, innerAdd inner sym d) :: rest := by
            simp [transAdd]
          rw [he2]
          intro e he
          rcases List.mem_cons.mp he with he | he
          · subst he
            exact ⟨innerAdd_WF inner sym d (hent _ (List.mem_cons_self _ _)).1,
              innerAdd_ne_nil inner sym d⟩
          · exact hent e (List.mem_cons_of_mem _ he)
        · simp only [transAdd, if_neg ha]
          intro e he
          rcases List.mem_cons.mp he with he | he
          · subst he
            exact hent _ (List.mem_cons_self _ _)
          · exact ih (fun q hq => hent q (List.mem_cons_of_mem _ hq)) e he

theorem transAdd_keyP (P : Nat → Prop) (t : Trans) (s : Nat) (sym : Char) (d : Nat)
    (ht : ∀ e ∈ t, P e.1) (hs : P s) : ∀ e ∈ transAdd t s sym d, P e.1 := by
  induction t with
  | nil =>
      intro e he
      simp only [transAdd, List.mem_singleton] at he
      subst he
      exact hs
  | cons q rest ih =>
      obtain ⟨a, inner⟩ := q
      by_cases ha : a = s
      · subst ha
        have he2 : transAdd ((a, inner) :: rest) a sym d = (a, innerAdd inner sym d) :: rest := by
          simp [transAdd]
        rw [he2]
        intro e he
        rcases List.mem_cons.mp he with he | he
        · subst he
          exact ht (a, inner) (List.mem_cons_self _ _)
        · exact ht e (List.mem_cons_of_mem _ he)
      · simp only [transAdd, if_neg ha]
        intro e he
        rcases List.mem_cons.mp he with he | he
        · subst he
          exact ht (a, inner) (List.mem_cons_self _ _)
        · exact ih (fun q hq => ht q (List.mem_cons_of_mem _ hq)) e he

/-! ### The Thompson evaluator preserves the stack invariant and the
non-epsilon transition count -/

theorem FragStates_mono (f : NFA) (lo hi lo2 hi2 : Nat)
    (h : FragStates f lo hi) (hl : lo2 ≤ lo) (hh : hi ≤ hi2) : FragStates f lo2 hi2 := by
  obtain ⟨h1, h2, h3, h4, h5⟩ := h
  refine ⟨by omega, by omega, by omega, by omega, ?_⟩
  intro e he
  have := h5 e he
  omega

theorem StackOK_mono (st : List NFA) (n m : Nat) (h : StackOK st n) (hm : n ≤ m) :
    StackOK st m := by
  cases st with
  | nil => trivial
  | cons f rest =>
      obtain ⟨lo, hf, hw, hr⟩ := h
      exact ⟨lo, FragStates_mono f lo n lo m hf le_rfl hm, hw, hr⟩

theorem entries_bound_append (t1 t2 : Trans) (P : Nat → Prop)
    (h1 : ∀ e ∈ t1, P e.1) (h2 : ∀ e ∈ t2, P e.1) : ∀ e ∈ t1 ++ t2, P e.1 := by
  intro e he
  rcases List.mem_append.mp he with he | he
  · exact h1 e he
  · exact h2 e he

theorem keys_disjoint_of_bounds (t1 t2 : Trans) (b : Nat)
    (h1 : ∀ e ∈ t1, e.1 < b) (h2 : ∀ e ∈ t2, b ≤ e.1) :
    ∀ k ∈ keys t2, k ∉ keys t1 := by
  intro k hk hk1
  simp only [keys, List.mem_map] at hk hk1
  obtain ⟨e2, he2, rfl⟩ := hk
  obtain ⟨e1, he1, heq⟩ := hk1
  have hx1 := h1 e1 he1
  have hx2 := h2 e2 he2
  omega

theorem starCase_inv (f : NFA) (rest : List NFA) (n : Nat) (h : StackOK (f :: rest) n) :
    ∃ g : NFA, starCase (f :: rest) n = .ok (g :: rest, n + 2) ∧
      StackOK (g :: rest) (n + 2) ∧ chCount g.transitions = chCount f.transitions := by
  obtain ⟨lo, hf, hw, hr⟩ := h
  obtain ⟨hb1, hb2, hb3, hb4, hb5⟩ := hf
  refine ⟨⟨n, n + 1,
    transAdd (transAdd (transAdd (transAdd f.transitions n epsSym f.start_state)
      f.accept_state epsSym f.start_state) n epsSym (n + 1)) f.accept_state epsSym (n + 1)⟩,
    rfl, ⟨lo, ⟨?_, ?_, ?_, ?_, ?_⟩, ?_, hr⟩, ?_⟩
  · show lo ≤ n
    omega
  · show n < n + 2
    omega
  · show lo ≤ n + 1
    omega
  · show n + 1 < n + 2
    omega
  · have base : ∀ e ∈ f.transitions, lo ≤ e.1 ∧ e.1 < n + 2 := by
      intro e he
      have := hb5 e he
      omega
    exact transAdd_keyP (fun k => lo ≤ k ∧ k < n + 2) _ _ _ _
      (transAdd_keyP (fun k => lo ≤ k ∧ k < n + 2) _ _ _ _
        (transAdd_keyP (fun k => lo ≤ k ∧ k < n + 2) _ _ _ _
          (transAdd_keyP (fun k => lo ≤ k ∧ k < n + 2) _ _ _ _ base ⟨by omega, by omega⟩)
          ⟨by omega, by omega⟩)
        ⟨by omega, by omega⟩)
      ⟨by omega, by omega⟩
  · exact transAdd_WF _ _ _ _ (transAdd_WF _ _ _ _ (transAdd_WF _ _ _ _ (transAdd_WF _ _ _ _ hw)))
  · show chCount (transAdd (transAdd (transAdd (transAdd f.transitions n epsSym f.start_state)
      f.accept_state epsSym f.start_state) n epsSym (n + 1)) f.accept_state epsSym (n + 1)) =
        chCount f.transitions
    rw [chCount_transAdd_eps, chCount_transAdd_eps, chCount_transAdd_eps, chCount_transAdd_eps]

theorem plusCase_inv (f : NFA) (rest : List NFA) (n : Nat) (h : StackOK (f :: rest) n) :
    ∃ g : NFA, plusCase (f :: rest) n = .ok (g :: rest, n + 2) ∧
      StackOK (g :: rest) (n + 2) ∧ chCount g.transitions = chCount f.transitions := by
  obtain ⟨lo, hf, hw, hr⟩ := h
  obtain ⟨hb1, hb2, hb3, hb4, hb5⟩ := hf
  refine ⟨⟨n, n + 1,
    transAdd (transAdd (transAdd f.transitions n epsSym f.start_state)
      f.accept_state epsSym f.start_state) f.accept_state epsSym (n + 1)⟩,
    rfl, ⟨lo, ⟨?_, ?_, ?_, ?_, ?_⟩, ?_, hr⟩, ?_⟩
  · show lo ≤ n
    omega
  · show n < n + 2
    omega
  · show lo ≤ n + 1
    omega
  · show n + 1 < n + 2
    omega
  · have base : ∀ e ∈ f.transitions, lo ≤ e.1 ∧ e.1 < n + 2 := by
      intro e he
      have := hb5 e he
      omega
    exact transAdd_keyP (fun k => lo ≤ k ∧ k < n + 2) _ _ _ _
      (transAdd_keyP (fun k => lo ≤ k ∧ k < n + 2) _ _ _ _
        (transAdd_keyP (fun k => lo ≤ k ∧ k < n + 2) _ _ _ _ base ⟨by omega, by omega⟩)
        ⟨by omega, by omega⟩)
      ⟨by omega, by omega⟩
  · exact transAdd_WF _ _ _ _ (transAdd_WF _ _ _ _ (transAdd_WF _ _ _ _ hw))
  · show chCount (transAdd (transAdd (transAdd f.transitions n epsSym f.start_state)
      f.accept_state epsSym f.start_state) f.accept_state epsSym (n + 1)) = chCount f.transitions
    rw [chCount_transAdd_eps, chCount_transAdd_eps, chCount_transAdd_eps]

theorem optCase_inv (f : NFA) (rest : List NFA) (n : Nat) (h : StackOK (f :: rest) n) :
    ∃ g : NFA, optCase (f :: rest) n = .ok (g :: rest, n + 2) ∧
      StackOK (g :: rest) (n + 2) ∧ chCount g.transitions = chCount f.transitions := by
  obtain ⟨lo, hf, hw, hr⟩ := h
  obtain ⟨hb1, hb2, hb3, hb4, hb5⟩ := hf
  refine ⟨⟨n, n + 1,
    transAdd (transAdd (transAdd f.transitions n epsSym f.start_state)
      f.accept_state epsSym (n + 1)) n epsSym (n + 1)⟩,
    rfl, ⟨lo, ⟨?_, ?_, ?_, ?_, ?_⟩, ?_, hr⟩, ?_⟩
  · show lo ≤ n
    omega
  · show n < n + 2
    omega
  · show lo ≤ n + 1
    omega
  · show n + 1 < n + 2
    omega
  · have base : ∀ e ∈ f.transitions, lo ≤ e.1 ∧ e.1 < n + 2 := by
      intro e he
      have := hb5 e he
      omega
    exact transAdd_keyP (fun k => lo ≤ k ∧ k < n + 2) _ _ _ _
      (transAdd_keyP (fun k => lo ≤ k ∧ k < n + 2) _ _ _ _
        (transAdd_keyP (fun k => lo ≤ k ∧ k < n + 2) _ _ _ _ base ⟨by omega, by omega⟩)
        ⟨by omega, by omega⟩)
      ⟨by omega, by omega⟩
  · exact transAdd_WF _ _ _ _ (transAdd_WF _ _ _ _ (transAdd_WF _ _ _ _ hw))
  · show chCount (transAdd (transAdd (transAdd f.transitions n epsSym f.start_state)
      f.accept_state epsSym (n + 1)) n epsSym (n + 1)) = chCount f.transitions
    rw [chCount_transAdd_eps, chCount_transAdd_eps, chCount_transAdd_eps]

theorem catCase_inv (f2 f1 : NFA) (rest : List NFA) (n : Nat)
    (h : StackOK (f2 :: f1 :: rest) n) :
    ∃ g : NFA, catCase (f2 :: f1 :: rest) n = .ok (g :: rest, n) ∧
      StackOK (g :: rest) n ∧
      chCount g.transitions = chCount f1.transitions + chCount f2.transitions := by
  obtain ⟨lo2, hf2, hw2, hs1⟩ := h
  obtain ⟨lo1, hf1, hw1, hr⟩ := hs1
  obtain ⟨ha1, ha2, ha3, ha4, ha5⟩ := hf2
  obtain ⟨hc1, hc2, hc3, hc4, hc5⟩ := hf1
  have hdisj : ∀ k ∈ keys f2.transitions, k ∉ keys f1.transitions :=
    keys_disjoint_of_bounds f1.transitions f2.transitions lo2
      (fun e he => (hc5 e he).2) (fun e he => (ha5 e he).1)
  have hmerge : mergeTrans f1.transitions f2.transitions = f1.transitions ++ f2.transitions :=
    mergeTrans_append f2.transitions f1.transitions hw2 hdisj
  refine ⟨⟨f1.start_state, f2.accept_state,
    transAdd (mergeTrans f1.transitions f2.transitions) f1.accept_state epsSym f2.start_state⟩,
    rfl, ⟨lo1, ⟨?_, ?_, ?_, ?_, ?_⟩, ?_, hr⟩, ?_⟩
  · show lo1 ≤ f1.start_state
    omega
  · show f1.start_state < n
    omega
  · show lo1 ≤ f2.accept_state
    omega
  · show f2.accept_state < n
    omega
  · show ∀ e ∈ transAdd (mergeTrans f1.transitions f2.transitions)
        f1.accept_state epsSym f2.start_state, lo1 ≤ e.1 ∧ e.1 < n
    rw [hmerge]
    apply transAdd_keyP (fun k => lo1 ≤ k ∧ k < n)
    · apply entries_bound_append f1.transitions f2.transitions (fun k => lo1 ≤ k ∧ k < n)
      · intro e he
        have := hc5 e he
        omega
      · intro e he
        have := ha5 e he
        omega
    · exact ⟨by omega, by omega⟩
  · show TransWF (transAdd (mergeTrans f1.transitions f2.transitions)
        f1.accept_state epsSym f2.start_state)
    rw [hmerge]
    apply transAdd_WF
    refine ⟨?_, ?_⟩
    · rw [keys_append]
      exact List.Nodup.append hw1.1 hw2.1 (fun a hx1 hx2 => hdisj a hx2 hx1)
    · intro e he
      rcases List.mem_append.mp he with he | he
      · exact hw1.2 e he
      · exact hw2.2 e he
  · show chCount (transAdd (mergeTrans f1.transitions f2.transitions)
      f1.accept_state epsSym f2.start_state) = chCount f1.transitions + chCount f2.transitions
    rw [hmerge, chCount_transAdd_eps, chCount_append]

theorem unionCase_inv (f2 f1 : NFA) (rest : List NFA) (n : Nat)
    (h : StackOK (f2 :: f1 :: rest) n) :
    ∃ g : NFA, unionCase (f2 :: f1 :: rest) n = .ok (g :: rest, n + 2) ∧
      StackOK (g :: rest) (n + 2) ∧
      chCount g.transitions = chCount f1.transitions + chCount f2.transitions := by
  obtain ⟨lo2, hf2, hw2, hs1⟩ := h
  obtain ⟨lo1, hf1, hw1, hr⟩ := hs1
  obtain ⟨ha1, ha2, ha3, ha4, ha5⟩ := hf2
  obtain ⟨hc1, hc2, hc3, hc4, hc5⟩ := hf1
  have hdisj : ∀ k ∈ keys f2.transitions, k ∉ keys f1.transitions :=
    keys_disjoint_of_bounds f1.transitions f2.transitions lo2
      (fun e he => (hc5 e he).2) (fun e he => (ha5 e he).1)
  have hmerge : mergeTrans f1.transitions f2.transitions = f1.transitions ++ f2.transitions :=
    mergeTrans_append f2.transitions f1.transitions hw2 hdisj
  have hWFm : TransWF (f1.transitions ++ f2.transitions) := by
    refine ⟨?_, ?_⟩
    · rw [keys_append]
      exact List.Nodup.append hw1.1 hw2.1 (fun a hx1 hx2 => hdisj a hx2 hx1)
    · intro e he
      rcases List.mem_append.mp he with he | he
      · exact hw1.2 e he
      · exact hw2.2 e he
  refine ⟨⟨n, n + 1,
    transAdd (transAdd (transAdd (transAdd (mergeTrans f1.transitions f2.transitions)
      n epsSym f1.start_state) n epsSym f2.start_state)
      f1.accept_state epsSym (n + 1)) f2.accept_state epsSym (n + 1)⟩,
    rfl, ⟨lo1, ⟨?_, ?_, ?_, ?_, ?_⟩, ?_, hr⟩, ?_⟩
  · show lo1 ≤ n
    omega
  · show n < n + 2
    omega
  · show lo1 ≤ n + 1
    omega
  · show n + 1 < n + 2
    omega
  · show ∀ e ∈ transAdd (transAdd (transAdd (transAdd (mergeTrans f1.transitions f2.transitions)
        n epsSym f1.start_state) n epsSym f2.start_state)
        f1.accept_state epsSym (n + 1)) f2.accept_state epsSym (n + 1), lo1 ≤ e.1 ∧ e.1 < n + 2
    rw [hmerge]
    have base : ∀ e ∈ f1.transitions ++ f2.transitions, lo1 ≤ e.1 ∧ e.1 < n + 2 := by
      apply entries_bound_append f1.transitions f2.transitions (fun k => lo1 ≤ k ∧ k < n + 2)
      · intro e he
        have := hc5 e he
        omega
      · intro e he
        have := ha5 e he
        omega
    exact transAdd_keyP (fun k => lo1 ≤ k ∧ k < n + 2) _ _ _ _
      (transAdd_keyP (fun k => lo1 ≤ k ∧ k < n + 2) _ _ _ _
        (transAdd_keyP (fun k => lo1 ≤ k ∧ k < n + 2) _ _ _ _
          (transAdd_keyP (fun k => lo1 ≤ k ∧ k < n + 2) _ _ _ _ base ⟨by omega, by omega⟩)
          ⟨by omega, by omega⟩)
        ⟨by omega, by omega⟩)
      ⟨by omega, by omega⟩
  · show TransWF (transAdd (transAdd (transAdd (transAdd (mergeTrans f1.transitions f2.transitions)
        n epsSym f1.start_state) n epsSym f2.start_state)
        f1.accept_state epsSym (n + 1)) f2.accept_state epsSym (n + 1))
    rw [hmerge]
    exact transAdd_WF _ _ _ _ (transAdd_WF _ _ _ _ (transAdd_WF _ _ _ _ (transAdd_WF _ _ _ _ hWFm)))
  · show chCount (transAdd (transAdd (transAdd (transAdd (mergeTrans f1.transitions f2.transitions)
      n epsSym f1.start_state) n epsSym f2.start_state)
      f1.accept_state epsSym (n + 1)) f2.accept_state epsSym (n + 1)) =
        chCount f1.transitions + chCount f2.transitions
    rw [hmerge, chCount_transAdd_eps, chCount_transAdd_eps, chCount_transAdd_eps,
      chCount_transAdd_eps, chCount_append]

theorem pstep_inv (stack : List NFA) (n : Nat) (c : Char) (stack2 : List NFA) (n2 : Nat)
    (hs : StackOK stack n) (hceps : c ≠ epsSym)
    (h : pstep (stack, n) c = .ok (stack2, n2)) :
    StackOK stack2 n2 ∧ stackCh stack2 = stackCh stack + (if c ∈ opChars then 0 else 1) := by
  by_cases hc : c ∈ opChars
  · rw [if_pos hc]
    simp only [opChars, List.mem_cons, List.not_mem_nil, or_false] at hc
    rcases hc with rfl | rfl | rfl | rfl | rfl
    · rw [show pstep (stack, n) '*' = starCase stack n from by simp [pstep, opChars]] at h
      rcases stack with _ | ⟨f, rest⟩
      · simp [starCase] at h
      · obtain ⟨g, heq, hok, hch⟩ := starCase_inv f rest n hs
        rw [heq] at h
        simp only [Except.ok.injEq, Prod.mk.injEq] at h
        obtain ⟨h1, h2⟩ := h
        subst h1
        subst h2
        refine ⟨hok, ?_⟩
        simp only [stackCh]
        omega
    · rw [show pstep (stack, n) '+' = plusCase stack n from by simp [pstep, opChars]] at h
      rcases stack with _ | ⟨f, rest⟩
      · simp [plusCase] at h
      · obtain ⟨g, heq, hok, hch⟩ := plusCase_inv f rest n hs
        rw [heq] at h
        simp only [Except.ok.injEq, Prod.mk.injEq] at h
        obtain ⟨h1, h2⟩ := h
        subst h1
        subst h2
        refine ⟨hok, ?_⟩
        simp only [stackCh]
        omega
    · rw [show pstep (stack, n) '?' = optCase stack n from by simp [pstep, opChars]] at h
      rcases stack with _ | ⟨f, rest⟩
      · simp [optCase] at h
      · obtain ⟨g, heq, hok, hch⟩ := optCase_inv f rest n hs
        rw [heq] at h
        simp only [Except.ok.injEq, Prod.mk.injEq] at h
        obtain ⟨h1, h2⟩ := h
        subst h1
        subst h2
        refine ⟨hok, ?_⟩
        simp only [stackCh]
        omega
    · rw [show pstep (stack, n) '.' = catCase stack n from by simp [pstep, opChars]] at h
      rcases stack with _ | ⟨f2, _ | ⟨f1, rest⟩⟩
      · simp [catCase] at h
      · simp [catCase] at h
      · obtain ⟨g, heq, hok, hch⟩ := catCase_inv f2 f1 rest n hs
        rw [heq] at h
        simp only [Except.ok.injEq, Prod.mk.injEq] at h
        obtain ⟨h1, h2⟩ := h
        subst h1
        subst h2
        refine ⟨hok, ?_⟩
        simp only [stackCh]
        omega
    · rw [show pstep (stack, n) '|' = unionCase stack n from by simp [pstep, opChars]] at h
      rcases stack with _ | ⟨f2, _ | ⟨f1, rest⟩⟩
      · simp [unionCase] at h
      · simp [unionCase] at h
      · obtain ⟨g, heq, hok, hch⟩ := unionCase_inv f2 f1 rest n hs
        rw [heq] at h
        simp only [Except.ok.injEq, Prod.mk.injEq] at h
        obtain ⟨h1, h2⟩ := h
        subst h1
        subst h2
        refine ⟨hok, ?_⟩
        simp only [stackCh]
        omega
  · rw [if_neg hc]
    rw [show pstep (stack, n) c = .ok ((NFA.mk n (n + 1) [(n, [(c, [n + 1])])]) :: stack, n + 2)
      from by simp [pstep, hc, NFA.add_transition, transAdd]] at h
    simp only [Except.ok.injEq, Prod.mk.injEq] at h
    obtain ⟨h1, h2⟩ := h
    subst h1
    subst h2
    have hfs : FragStates (NFA.mk n (n + 1) [(n, [(c, [n + 1])])]) n (n + 2) := by
      refine ⟨?_, ?_, ?_, ?_, ?_⟩
      · show n ≤ n
        omega
      · show n < n + 2
        omega
      · show n ≤ n + 1
        omega
      · show n + 1 < n + 2
        omega
      · show ∀ e ∈ [(n, [(c, [n + 1])])], n ≤ e.1 ∧ e.1 < n + 2
        intro e he
        simp only [List.mem_singleton] at he
        subst he
        exact ⟨le_rfl, by omega⟩
    have hwf : TransWF [(n, [(c, [n + 1])])] := by
      refine ⟨by simp [keys], ?_⟩
      intro e he
      simp only [List.mem_singleton] at he
      subst he
      refine ⟨⟨by simp [ikeys], ?_⟩, by simp⟩
      intro p hp
      simp only [List.mem_singleton] at hp
      subst hp
      simp
    refine ⟨⟨n, hfs, hwf, hs⟩, ?_⟩
    show chCount [(n, [(c, [n + 1])])] + stackCh stack = stackCh stack + 1
    simp only [chCount, chCountInner]
    rw [if_neg hceps]
    simp only [List.length_singleton]
    omega

theorem pstepRun_inv (cs : List Char) :
    ∀ stack n stack2 n2, StackOK stack n → (∀ c ∈ cs, c ≠ epsSym) →
      pstepRun cs (stack, n) = .ok (stack2, n2) →
      StackOK stack2 n2 ∧ stackCh stack2 = stackCh stack + countLit5 cs := by
  induction cs with
  | nil =>
      intro stack n stack2 n2 hs _ h
      simp only [pstepRun, Except.ok.injEq, Prod.mk.injEq] at h
      obtain ⟨h1, h2⟩ := h
      subst h1
      subst h2
      simp [countLit5, hs]
  | cons c cs ih =>
      intro stack n stack2 n2 hs hcs h
      cases hp : pstep (stack, n) c with
      | error e => simp [pstepRun, hp] at h
      | ok st2 =>
          obtain ⟨stackm, nm⟩ := st2
          have hstep := pstep_inv stack n c stackm nm hs (hcs c (List.mem_cons_self _ _)) hp
          have hrun : pstepRun cs (stackm, nm) = .ok (stack2, n2) := by
            simpa [pstepRun, hp] using h
          have hrest := ih stackm nm stack2 n2 hstep.1
            (fun x hx => hcs x (List.mem_cons_of_mem _ hx)) hrun
          refine ⟨hrest.1, ?_⟩
          have h1 := hstep.2
          have h2 := hrest.2
          simp only [countLit5]
          omega

theorem postToNfa_count (p : String) (nfa : NFA)
    (h : postToNfa p = .ok nfa) (heps : ∀ c ∈ p.data, c ≠ epsSym) :
    chCount nfa.transitions = countLit5 p.data := by
  unfold postToNfa at h
  cases hr : pstepRun p.data ([], 0) with
  | error e => rw [hr] at h; simp at h
  | ok st =>
      obtain ⟨stack, n⟩ := st
      rw [hr] at h
      have hinv := pstepRun_inv p.data [] 0 stack n trivial heps hr
      rcases stack with _ | ⟨g, _ | _⟩
      · simp at h
      · simp only [Except.ok.injEq] at h
        subst h
        have := hinv.2
        simp only [stackCh] at this
        omega
      · simp at h

/-! ### The shunting-yard loop preserves the literal count -/

theorem countL7_append (l1 l2 : List Char) :
    countL7 (l1 ++ l2) = countL7 l1 + countL7 l2 := by
  induction l1 with
  | nil => simp [countL7]
  | cons c rest ih =>
      simp only [List.cons_append, countL7, List.append_eq]
      rw [ih]
      omega

theorem stackOps_special : ∀ x ∈ stackOps, x ∈ ['*', '+', '?', '.', '|', '(', ')'] := by decide

theorem stackOps_ne_rparen : ∀ x ∈ stackOps, x ≠ ')' := by decide

theorem opChars_sub_stackOps : ∀ x ∈ opChars, x ∈ stackOps := by decide

theorem opChars_special : ∀ x ∈ opChars, x ∈ ['*', '+', '?', '.', '|', '(', ')'] := by decide

theorem not_special_of (c : Char) (h1 : c ≠ '(') (h2 : c ≠ ')') (h3 : c ∉ opChars) :
    c ∉ ['*', '+', '?', '.', '|', '(', ')'] := by
  simp only [opChars, List.mem_cons, List.not_mem_nil, or_false, not_or] at h3 ⊢
  tauto

theorem countL7_zero (l : List Char) (h : ∀ x ∈ l, x ∈ stackOps) : countL7 l = 0 := by
  induction l with
  | nil => rfl
  | cons c rest ih =>
      simp only [countL7]
      rw [if_pos (stackOps_special c (h c (List.mem_cons_self _ _))),
        ih (fun x hx => h x (List.mem_cons_of_mem _ hx))]

theorem popUntilParen_spec (stack : List Char) :
    ∀ out out2 stack2, popUntilParen out stack = .ok (out2, stack2) →
      ∃ moved, out2 = out ++ moved ∧ (∀ x ∈ moved, x ∈ stack) ∧ (∀ x ∈ stack2, x ∈ stack) := by
  induction stack with
  | nil => intro out out2 stack2 h; simp [popUntilParen] at h
  | cons top rest ih =>
      intro out out2 stack2 h
      by_cases ht : top = '('
      · subst ht
        simp only [popUntilParen, if_pos rfl, ite_true, Except.ok.injEq, Prod.mk.injEq] at h
        obtain ⟨h1, h2⟩ := h
        subst h1
        subst h2
        exact ⟨[], by simp, by simp, fun x hx => List.mem_cons_of_mem _ hx⟩
      · simp only [popUntilParen, if_neg ht] at h
        obtain ⟨m2, hm1, hm2, hm3⟩ := ih (out ++ [top]) out2 stack2 h
        refine ⟨top :: m2, ?_, ?_, ?_⟩
        · rw [hm1, List.append_assoc, List.singleton_append]
        · intro x hx
          rcases List.mem_cons.mp hx with rfl | hx
          · exact List.mem_cons_self _ _
          · exact List.mem_cons_of_mem _ (hm2 x hx)
        · exact fun x hx => List.mem_cons_of_mem _ (hm3 x hx)

theorem popGE_spec (stack : List Char) :
    ∀ out c, ∃ moved, (popGE out stack c).1 = out ++ moved ∧
      (∀ x ∈ moved, x ∈ stack) ∧ (∀ x ∈ (popGE out stack c).2, x ∈ stack) := by
  induction stack with
  | nil => intro out c; exact ⟨[], by simp [popGE], by simp, by simp [popGE]⟩
  | cons top rest ih =>
      intro out c
      by_cases hp : prec c ≤ prec top
      · obtain ⟨m2, hm1, hm2, hm3⟩ := ih (out ++ [top]) c
        refine ⟨top :: m2, ?_, ?_, ?_⟩
        · simp only [popGE, if_pos hp]
          rw [hm1, List.append_assoc, List.singleton_append]
        · intro x hx
          rcases List.mem_cons.mp hx with rfl | hx
          · exact List.mem_cons_self _ _
          · exact List.mem_cons_of_mem _ (hm2 x hx)
        · simp only [popGE, if_pos hp]
          exact fun x hx => List.mem_cons_of_mem _ (hm3 x hx)
      · refine ⟨[], by simp [popGE, if_neg hp], by simp, ?_⟩
        simp only [popGE, if_neg hp]
        exact fun x hx => hx

theorem shuntStep_inv (U : Char → Prop) (out stack : List Char) (c : Char)
    (out2 stack2 : List Char)
    (hstk : ∀ x ∈ stack, x ∈ stackOps) (hnp : ∀ x ∈ out, x ≠ ')')
    (hUo : ∀ x ∈ out, U x) (hUs : ∀ x ∈ stack, U x) (hUc : U c)
    (h : shuntStep (out, stack) c = .ok (out2, stack2)) :
    (∀ x ∈ stack2, x ∈ stackOps) ∧ (∀ x ∈ out2, x ≠ ')') ∧
    (∀ x ∈ out2, U x) ∧ (∀ x ∈ stack2, U x) ∧
    countL7 out2 = countL7 out + countL7 [c] := by
  by_cases hc1 : c = '('
  · subst hc1
    simp only [shuntStep, if_pos rfl, ite_true, Except.ok.injEq, Prod.mk.injEq] at h
    obtain ⟨h1, h2⟩ := h
    subst h1
    subst h2
    refine ⟨?_, hnp, hUo, ?_, by simp [countL7]⟩
    · intro x hx
      rcases List.mem_cons.mp hx with rfl | hx
      · decide
      · exact hstk x hx
    · intro x hx
      rcases List.mem_cons.mp hx with rfl | hx
      · exact hUc
      · exact hUs x hx
  · by_cases hc2 : c = ')'
    · subst hc2
      have hps : popUntilParen out stack = .ok (out2, stack2) := by
        simpa [shuntStep, hc1] using h
      obtain ⟨moved, hm1, hm2, hm3⟩ := popUntilParen_spec stack out out2 stack2 hps
      subst hm1
      refine ⟨fun x hx => hstk x (hm3 x hx), ?_, ?_, fun x hx => hUs x (hm3 x hx), ?_⟩
      · intro x hx
        rcases List.mem_append.mp hx with hx | hx
        · exact hnp x hx
        · exact stackOps_ne_rparen x (hstk x (hm2 x hx))
      · intro x hx
        rcases List.mem_append.mp hx with hx | hx
        · exact hUo x hx
        · exact hUs x (hm2 x hx)
      · rw [countL7_append, countL7_zero moved (fun x hx => hstk x (hm2 x hx))]
        have hz : countL7 [')'] = 0 := by decide
        rw [hz]
    · by_cases hc3 : c ∈ opChars
      · have hpair : (popGE out stack c).1 = out2 ∧ c :: (popGE out stack c).2 = stack2 := by
          simpa [shuntStep, hc1, hc2, hc3] using h
        obtain ⟨h1, h2⟩ := hpair
        subst h1
        subst h2
        obtain ⟨moved, hm1, hm2, hm3⟩ := popGE_spec stack out c
        refine ⟨?_, ?_, ?_, ?_, ?_⟩
        · intro x hx
          rcases List.mem_cons.mp hx with rfl | hx
          · exact opChars_sub_stackOps x hc3
          · exact hstk x (hm3 x hx)
        · intro x hx
          rw [hm1] at hx
          rcases List.mem_append.mp hx with hx | hx
          · exact hnp x hx
          · exact stackOps_ne_rparen x (hstk x (hm2 x hx))
        · intro x hx
          rw [hm1] at hx
          rcases List.mem_append.mp hx with hx | hx
          · exact hUo x hx
          · exact hUs x (hm2 x hx)
        · intro x hx
          rcases List.mem_cons.mp hx with rfl | hx
          · exact hUc
          · exact hUs x (hm3 x hx)
        · rw [hm1, countL7_append, countL7_zero moved (fun x hx => hstk x (hm2 x hx))]
          have hz : countL7 [c] = 0 := by
            simp only [countL7]
            rw [if_pos (opChars_special c hc3)]
          rw [hz]
      · have hpair : out ++ [c] = out2 ∧ stack = stack2 := by
          simpa [shuntStep, hc1, hc2, hc3] using h
        obtain ⟨h1, h2⟩ := hpair
        subst h1
        subst h2
        refine ⟨hstk, ?_, ?_, hUs, ?_⟩
        · intro x hx
          rcases List.mem_append.mp hx with hx | hx
          · exact hnp x hx
          · rcases List.mem_singleton.mp hx with rfl
            exact hc2
        · intro x hx
          rcases List.mem_append.mp hx with hx | hx
          · exact hUo x hx
          · rcases List.mem_singleton.mp hx with rfl
            exact hUc
        · rw [countL7_append]

theorem shuntRun_inv (U : Char → Prop) (cs : List Char) :
    ∀ out stack out2 stack2,
      (∀ x ∈ stack, x ∈ stackOps) → (∀ x ∈ out, x ≠ ')') →
      (∀ x ∈ out, U x) → (∀ x ∈ stack, U x) → (∀ x ∈ cs, U x) →
      shuntRun cs (out, stack) = .ok (out2, stack2) →
      (∀ x ∈ stack2, x ∈ stackOps) ∧ (∀ x ∈ out2, x ≠ ')') ∧
      (∀ x ∈ out2, U x) ∧ (∀ x ∈ stack2, U x) ∧
      countL7 out2 = countL7 out + countL7 cs := by
  induction cs with
  | nil =>
      intro out stack out2 stack2 h1 h2 h3 h4 _ h
      simp only [shuntRun, Except.ok.injEq, Prod.mk.injEq] at h
      obtain ⟨e1, e2⟩ := h
      subst e1
      subst e2
      exact ⟨h1, h2, h3, h4, by simp [countL7]⟩
  | cons c cs ih =>
      intro out stack out2 stack2 h1 h2 h3 h4 hU h
      cases hp : shuntStep (out, stack) c with
      | error e => simp [shuntRun, hp] at h
      | ok st2 =>
          obtain ⟨outm, stackm⟩ := st2
          have hstep := shuntStep_inv U out stack c outm stackm h1 h2 h3 h4
            (hU c (List.mem_cons_self _ _)) hp
          have hrun : shuntRun cs (outm, stackm) = .ok (out2, stack2) := by
            simpa [shuntRun, hp] using h
          have hrest := ih outm stackm out2 stack2 hstep.1 hstep.2.1 hstep.2.2.1 hstep.2.2.2.1
            (fun x hx => hU x (List.mem_cons_of_mem _ hx)) hrun
          refine ⟨hrest.1, hrest.2.1, hrest.2.2.1, hrest.2.2.2.1, ?_⟩
          have q1 := hstep.2.2.2.2
          have q2 := hrest.2.2.2.2
          have hsing : countL7 (c :: cs) = countL7 [c] + countL7 cs := by
            simp only [countL7]
            omega
          omega

/-! ### Concatenation insertion preserves literals -/

theorem insertConcat_mem (cs : List Char) : ∀ x ∈ insertConcat cs, x ∈ cs ∨ x = '.' := by
  induction cs with
  | nil => simp [insertConcat]
  | cons c rest ih =>
      cases rest with
      | nil =>
          intro x hx
          simp only [insertConcat, List.mem_singleton] at hx
          subst hx
          exact Or.inl (List.mem_cons_self _ _)
      | cons nxt rest2 =>
          intro x hx
          by_cases hcond : (c ∉ ['(', '|'] ∧ nxt ∉ [')', '|', '*', '+', '?'])
          · rw [show insertConcat (c :: nxt :: rest2) = c :: '.' :: insertConcat (nxt :: rest2)
              from by simp only [insertConcat]; rw [if_pos hcond]] at hx
            rcases List.mem_cons.mp hx with rfl | hx
            · exact Or.inl (List.mem_cons_self _ _)
            · rcases List.mem_cons.mp hx with rfl | hx
              · exact Or.inr rfl
              · rcases ih x hx with hcase | hcase
                · exact Or.inl (List.mem_cons_of_mem _ hcase)
                · exact Or.inr hcase
          · rw [show insertConcat (c :: nxt :: rest2) = c :: insertConcat (nxt :: rest2)
              from by simp only [insertConcat]; rw [if_neg hcond]] at hx
            rcases List.mem_cons.mp hx with rfl | hx
            · exact Or.inl (List.mem_cons_self _ _)
            · rcases ih x hx with hcase | hcase
              · exact Or.inl (List.mem_cons_of_mem _ hcase)
              · exact Or.inr hcase

theorem insertConcat_countL7 (cs : List Char) :
    countL7 (insertConcat cs) = countL7 cs := by
  induction cs with
  | nil => rfl
  | cons c rest ih =>
      cases rest with
      | nil => rfl
      | cons nxt rest2 =>
          by_cases hcond : (c ∉ ['(', '|'] ∧ nxt ∉ [')', '|', '*', '+', '?'])
          · rw [show insertConcat (c :: nxt :: rest2) = c :: '.' :: insertConcat (nxt :: rest2)
              from by simp only [insertConcat]; rw [if_pos hcond]]
            simp only [countL7, ih]
            have hdot : (('.' : Char) ∈ ['*', '+', '?', '.', '|', '(', ')']) := by decide
            rw [if_pos hdot]
            omega
          · rw [show insertConcat (c :: nxt :: rest2) = c :: insertConcat (nxt :: rest2)
              from by simp only [insertConcat]; rw [if_neg hcond]]
            simp only [countL7, ih]

theorem count57 (cs : List Char) (h : ∀ x ∈ cs, x ≠ '(' ∧ x ≠ ')') :
    countLit5 cs = countL7 cs := by
  induction cs with
  | nil => rfl
  | cons c rest ih =>
      simp only [countLit5, countL7]
      have hc := h c (List.mem_cons_self _ _)
      rw [ih (fun x hx => h x (List.mem_cons_of_mem _ hx))]
      congr 1
      by_cases h5 : c ∈ opChars
      · rw [if_pos h5, if_pos (opChars_special c h5)]
      · rw [if_neg h5, if_neg (not_special_of c hc.1 hc.2 h5)]

/-- C4 (amended): for every expression on which the conversion succeeds,
provided no unmatched opening marker leaks into the postfix output (no
`'('` in the postfix string) and the expression does not contain the
reserved in-band epsilon-marker character `'ε'`, the number of
non-epsilon transitions in the final automaton equals the number of
literal characters (characters outside the operator and grouping
alphabet) of the original expression. -/
theorem c4_amended (e p : String) (nfa : NFA)
    (h1 : regexToPost e = .ok p)
    (h2 : postToNfa p = .ok nfa)
    (hpar : '(' ∉ p.data)
    (heps : 'ε' ∉ e.data) :
    chCount nfa.transitions = countLiterals e := by
  unfold regexToPost at h1
  cases hs : shuntRun (insertConcat e.data) ([], []) with
  | error err => rw [hs] at h1; simp at h1
  | ok st =>
      obtain ⟨out, stack⟩ := st
      rw [hs] at h1
      simp only [Except.ok.injEq] at h1
      have hpd : p.data = out ++ stack := by rw [← h1]
      have hinv := shuntRun_inv (fun x => x ∈ e.data ∨ x = '.') (insertConcat e.data)
        [] [] out stack (by simp) (by simp) (by simp) (by simp)
        (fun x hx => insertConcat_mem e.data x hx) hs
      obtain ⟨hstk, hnp, hUo, hUs, hcount⟩ := hinv
      have hchars : ∀ x ∈ p.data, (x ∈ e.data ∨ x = '.') := by
        rw [hpd]
        intro x hx
        rcases List.mem_append.mp hx with hx | hx
        · exact hUo x hx
        · exact hUs x hx
      have hnoeps : ∀ c ∈ p.data, c ≠ epsSym := by
        intro c hc hce
        rcases hchars c hc with hin | hdot
        · rw [hce] at hin
          exact heps hin
        · rw [hce] at hdot
          exact absurd hdot (by decide)
      have hnopar : ∀ x ∈ p.data, x ≠ '(' ∧ x ≠ ')' := by
        intro x hx
        constructor
        · intro hxe
          rw [hxe] at hx
          exact hpar hx
        · rw [hpd] at hx
          rcases List.mem_append.mp hx with hx | hx
          · exact hnp x hx
          · exact stackOps_ne_rparen x (hstk x hx)
      have hc1 := postToNfa_count p nfa h2 hnoeps
      rw [hc1, count57 p.data hnopar, hpd, countL7_append,
        countL7_zero stack hstk, hcount, insertConcat_countL7]
      simp [countLiterals, countL7]

theorem c4_amended_witness :
    regexToPost "(a|b)?a" = .ok "ab|?a." ∧
    postToNfa "ab|?a." = .ok demoNfa ∧
    '(' ∉ ("ab|?a." : String).data ∧
    'ε' ∉ ("(a|b)?a" : String).data ∧
    chCount demoNfa.transitions = countLiterals "(a|b)?a" :=
  ⟨rfl, rfl, by decide, by decide,
    c4_amended "(a|b)?a" "ab|?a." demoNfa rfl rfl (by decide) (by decide)⟩

end RegexNfa
